import Mathlib

namespace R4

/-! Shallow embedding of the cross-revision grep core of r4.py: the
revision-range coalescer, the revision-specifier formatter, path
stripping, the annotate-stream reducer of R4Grep.run, and the
usage-error path of R4Command.run_command / the main entry point.
Revision numbers are modelled as naturals (the data model makes them
non-negative); Python truthiness of the integer-or-None variables is
modelled explicitly. -/

/-- Embedding of canonicalize_revision_range from r4.py: renders a
revision range as a canonical specifier string, collapsing a degenerate
range (upper == lower) to a single revision number. -/
def canonicalize_revision_range (lower upper : Nat) : String :=
  if upper = lower then ("#") ++ toString lower
  else ("#") ++ toString lower ++ (",") ++ toString upper

/-- Helper embedding of Python str.rfind combined with the slice
path[0:pos]: returns the segment of the list strictly before the last
occurrence of c, or none when c does not occur at all. -/
def takeUntilLast (c : Char) : List Char → Option (List Char)
  | [] => none
  | x :: xs =>
    match takeUntilLast c xs with
    | some ys => some (x :: ys)
    | none => if x = c then some ([]) else none

/-- Embedding of strip_revision_specifiers from r4.py: drop a trailing
revision specifier, looking for the rightmost at-sign first and the
rightmost hash-sign only when no at-sign occurs. -/
def strip_revision_specifiers (path : String) : String :=
  match takeUntilLast ('@') path.data with
  | some pre => String.mk pre
  | none =>
    match takeUntilLast ('#') path.data with
    | some pre => String.mk pre
    | none => path

/-- Python truthiness of the start_l variable in coalesce_revision_ranges:
None and 0 are falsy, every positive integer is truthy. -/
def pyTruthy : Option Nat → Bool
  | none => false
  | some 0 => false
  | some (_ + 1) => true

/-- One step of the maximum computation in coalesce_revision_ranges:
Python tests "if not max_r or int(r) > max_r", so a current value of
None or 0 is unconditionally replaced. -/
def pyMaxStep (acc : Option Nat) (p : Nat × Nat) : Option Nat :=
  match acc with
  | none => some p.2
  | some m => if m = 0 then some p.2 else if p.2 > m then some p.2 else some m

/-- The max_r loop of coalesce_revision_ranges over the whole input. -/
def pyMaxR (ranges : List (Nat × Nat)) : Option Nat :=
  ranges.foldl pyMaxStep none

/-- The marking loop of coalesce_revision_ranges: set every index in
the closed interval from l to r of the bitmap to true. -/
def markRange (bm : List Bool) (l r : Nat) : List Bool :=
  (List.range' l (r + 1 - l)).foldl (fun b i => b.set i true) bm

/-- The scanning while-loop of coalesce_revision_ranges. The state is
the accumulated output, the Python start_l variable (None or an
integer, with Python truthiness) and the position counter; it returns
the state at loop exit. -/
def scanLoop : List (Nat × Nat) → Option Nat → Nat → List Bool →
    List (Nat × Nat) × Option Nat × Nat
  | new_ranges, start_l, pos, [] => (new_ranges, start_l, pos)
  | new_ranges, start_l, pos, state :: rest =>
    let p1 : List (Nat × Nat) × Option Nat :=
      if pyTruthy start_l && !state then
        (new_ranges ++ [(start_l.getD 0, pos - 1)], none)
      else (new_ranges, start_l)
    let p2 : Option Nat :=
      if !(pyTruthy p1.2) && state then some pos else p1.2
    scanLoop p1.1 p2 (pos + 1) rest

/-- The final "if start_l:" append after the scanning loop of
coalesce_revision_ranges. -/
def finishScan (t : List (Nat × Nat) × Option Nat × Nat) : List (Nat × Nat) :=
  if pyTruthy t.2.1 then t.1 ++ [(t.2.1.getD 0, t.2.2 - 1)] else t.1

/-- Embedding of coalesce_revision_ranges from r4.py. On an empty input
Python computes max_r = None and crashes on max_r + 1; this is modelled
as the result none. Otherwise the function builds a bitmap of covered
revisions up to the computed maximum and scans it once, opening and
closing output ranges at coverage transitions. -/
def coalesce_revision_ranges (ranges : List (Nat × Nat)) : Option (List (Nat × Nat)) :=
  match pyMaxR ranges with
  | none => none
  | some max_r =>
    let revisions :=
      ranges.foldl (fun bm p => markRange bm p.1 p.2) (List.replicate (max_r + 1) false)
    some (finishScan (scanLoop ([]) none 0 revisions))

/-- A revision number n lies in the union of integer points of a list
of closed ranges. -/
def coveredBy (rs : List (Nat × Nat)) (n : Nat) : Prop :=
  ∃ r ∈ rs, r.1 ≤ n ∧ n ≤ r.2

instance coveredBy_decidable (rs : List (Nat × Nat)) (n : Nat) : Decidable (coveredBy rs n) :=
  inferInstanceAs (Decidable (∃ r ∈ rs, r.1 ≤ n ∧ n ≤ r.2))

/-- Proof-side recursive description of the scanning loop on a bitmap
suffix, free of the Python truthiness quirk: pos is the index of the
head of the remaining bitmap and the optional open run start. -/
def runs : Nat → Option Nat → List Bool → List (Nat × Nat)
  | pos, some s, [] => [(s, pos - 1)]
  | _, none, [] => []
  | pos, some s, b :: rest =>
    if b then runs (pos + 1) (some s) rest
    else (s, pos - 1) :: runs (pos + 1) none rest
  | pos, none, b :: rest =>
    if b then runs (pos + 1) (some pos) rest
    else runs (pos + 1) none rest

/-- Proof-side predicate: position n is marked true in the bitmap
suffix bm whose head sits at absolute position pos. -/
def bmCovers : Nat → List Bool → Nat → Prop
  | _, [], _ => False
  | pos, b :: rest, n => (n = pos ∧ b = true) ∨ bmCovers (pos + 1) rest n

instance bmCovers_decidable (pos : Nat) (bm : List Bool) (n : Nat) :
    Decidable (bmCovers pos bm n) := by
  induction bm generalizing pos with
  | nil => exact isFalse (fun h => h)
  | cons b rest ih =>
    have := ih (pos + 1)
    exact inferInstanceAs (Decidable (_ ∨ _))

/-- Annotate-stream records as consumed by R4Grep.run: a record with a
depotFile key marks a file boundary, any other record carries a line
with its inclusive revision range and text. -/
inductive AnnRec where
  | fileInfo (depotFile : String)
  | lineInfo (lower upper : Nat) (data : String)

/-- The mutable scan state of R4Grep.run, plus the stream of text
written so far (print and sys.stdout.write calls, in order). -/
structure GrepState where
  got_match : Bool
  match_ranges : List (Nat × Nat)
  path : Option String
  output : List String
deriving DecidableEq

/-- The effective match predicate of R4Grep.run: the raw matcher result,
negated when the invert-match flag is set. -/
def effectiveMatch (m : String → Bool) (invert : Bool) (data : String) : Bool :=
  let re_matches := m data
  if invert then !re_matches else re_matches

/-- Python str() of the path variable, which is None before the first
file boundary record. -/
def pyStrOpt : Option String → String
  | none => ("None")
  | some s => s

/-- Python truthiness of the path variable: None and the empty string
are falsy. -/
def truthyStr : Option String → Bool
  | none => false
  | some s => !s.isEmpty

/-- The flush step of R4Grep.run ("finish up the previous file"):
when the path is truthy, the list-files flag is set and a match was
recorded, coalesce the accumulated ranges and print one line per
covering range. The failure of the coalescer on an empty input
propagates as none. -/
def flushFile (st : GrepState) (jl : Bool) : Option (List String) :=
  if truthyStr st.path && jl && st.got_match then
    match coalesce_revision_ranges st.match_ranges with
    | none => none
    | some rs =>
      some (rs.map (fun r =>
        st.path.getD ("") ++ canonicalize_revision_range r.1 r.2 ++ ("\n")))
  else some ([])

/-- Processing of one annotate record in the loop body of R4Grep.run:
a boundary record flushes the previous file and resets the state; a
line record is tested against the effective predicate and either
accumulated (list mode) or written immediately (print mode). -/
def stepRec (m : String → Bool) (jl invert : Bool) (st : GrepState) (r : AnnRec) :
    Option GrepState :=
  match r with
  | AnnRec.fileInfo depotFile =>
    match flushFile st jl with
    | none => none
    | some out =>
      some { got_match := false, match_ranges := [],
             path := some (strip_revision_specifiers depotFile),
             output := st.output ++ out }
  | AnnRec.lineInfo lower upper data =>
    if effectiveMatch m invert data then
      if jl then
        some { st with got_match := true,
                       match_ranges := st.match_ranges ++ [(lower, upper)] }
      else
        some { st with output := st.output ++
          [pyStrOpt st.path ++ canonicalize_revision_range lower upper ++ (": ") ++ data] }
    else some st

/-- The inner record loop of R4Grep.run over one annotate stream. -/
def processStream (m : String → Bool) (jl invert : Bool) :
    GrepState → List AnnRec → Option GrepState
  | st, [] => some st
  | st, r :: rest =>
    match stepRec m jl invert st r with
    | none => none
    | some st2 => processStream m jl invert st2 rest

/-- One iteration of the outer file loop of R4Grep.run: consume the
file's annotate stream, then perform the end-of-stream flush. The
state is deliberately not reset afterwards, exactly as in the source. -/
def processFileArg (m : String → Bool) (jl invert : Bool) (st : GrepState)
    (recs : List AnnRec) : Option GrepState :=
  match processStream m jl invert st recs with
  | none => none
  | some st2 =>
    match flushFile st2 jl with
    | none => none
    | some out => some { st2 with output := st2.output ++ out }

/-- The outer file loop of R4Grep.run. -/
def processFiles (m : String → Bool) (jl invert : Bool) :
    GrepState → List (List AnnRec) → Option GrepState
  | st, [] => some st
  | st, f :: fs =>
    match processFileArg m jl invert st f with
    | none => none
    | some st2 => processFiles m jl invert st2 fs

/-- Embedding of the scan phase of R4Grep.run: the matcher stands for
the compiled regular expression, each element of files is the annotate
stream returned for one file argument, and the result is the ordered
list of written output chunks (none models a crash). -/
def grepRun (m : String → Bool) (jl invert : Bool) (files : List (List AnnRec)) :
    Option (List String) :=
  (processFiles m jl invert
      { got_match := false, match_ranges := [], path := none, output := [] } files).map
    GrepState.output

/-- Lower-casing of an ASCII character, as performed by the regex
engine under the ignore-case flag. -/
def asciiLower (c : Char) : Char :=
  if ('A' ≤ c ∧ c ≤ 'Z') then Char.ofNat (c.toNat + 32) else c

/-- Scans a character list for the three-character pattern f, o, o. -/
def hasFooSub : List Char → Bool
  | 'f' :: 'o' :: 'o' :: _ => true
  | _ :: rest => hasFooSub rest
  | [] => false

/-- Modelled from the spec: the compiled matcher for the literal
pattern "foo" under the ignore-case flag. The regex engine itself
(Python re, an external library absent from the source tree) reduces on
a literal pattern with re.IGNORECASE to case-folded substring
containment, per the Pattern Matcher contract of the spec. -/
def matchesFooCI (s : String) : Bool :=
  hasFooSub (s.data.map asciiLower)

/-- Observable outcome of one command invocation: text written to
standard output, text written to standard error, and the process exit
status. -/
structure RunOutcome where
  stdout : List String
  stderr : List String
  exitCode : Nat
deriving DecidableEq

/-- The usage diagnostic printed by R4Command.print_usage for the grep
command. -/
def grepUsage : String :=
  ("Usage: grep [ -i ] [ -l ] [ -v ] pattern file[revRange]...\n")

/-- Embedding of the argument-arity path of R4Grep.run together with
R4Command.run_command and the main entry point: with fewer than two
positional arguments MissingOrWrongArguments is raised, caught, and
reported as a usage diagnostic on standard error, and run_command
returns None so sys.exit yields status 0; otherwise the scan runs and
run_command again returns None, so a completed scan also exits with
status 0. -/
def grepCommand (m : String → Bool) (jl invert : Bool) (args : List String)
    (streams : List (List AnnRec)) : Option RunOutcome :=
  if args.length < 2 then
    some { stdout := [],
           stderr := [grepUsage, ("Missing/wrong number of arguments.\n")],
           exitCode := 0 }
  else
    match grepRun m jl invert streams with
    | none => none
    | some out => some { stdout := out, stderr := [], exitCode := 0 }

/-- Invariant of the reducer state: a recorded match implies a
non-empty accumulated range list. -/
def stateInv (st : GrepState) : Prop :=
  st.got_match = true → st.match_ranges ≠ []

end R4

namespace R4

lemma getD_cons_zero (a : Bool) (t : List Bool) : (a :: t).getD 0 false = a := rfl

lemma getD_cons_succ (a : Bool) (t : List Bool) (k : Nat) :
    (a :: t).getD (k + 1) false = t.getD k false := rfl

lemma takeUntilLast_eq_none (c : Char) : ∀ cs : List Char,
    takeUntilLast c cs = none ↔ c ∉ cs := by
  intro cs
  induction cs with
  | nil => simp [takeUntilLast]
  | cons x xs ih =>
    simp only [takeUntilLast]
    cases h : takeUntilLast c xs with
    | some ys =>
      have hmem : c ∈ xs := by
        by_contra hc
        rw [ih.mpr hc] at h
        cases h
      simp [hmem]
    | none =>
      have hnotin : c ∉ xs := ih.mp h
      by_cases hxc : x = c
      · simp [hxc]
      · simp [hxc, hnotin]
        intro he
        exact hxc he.symm

lemma takeUntilLast_eq_some (c : Char) : ∀ (cs ys : List Char),
    takeUntilLast c cs = some ys → ∃ rest, cs = ys ++ c :: rest ∧ c ∉ rest := by
  intro cs
  induction cs with
  | nil => intro ys h; cases h
  | cons x xs ih =>
    intro ys h
    simp only [takeUntilLast] at h
    cases h2 : takeUntilLast c xs with
    | some zs =>
      rw [h2] at h
      obtain ⟨rest, hcs, hrest⟩ := ih zs h2
      have hys : ys = x :: zs := by
        injection h with h3
        exact h3.symm
      subst hys
      exact ⟨rest, by rw [hcs]; rfl, hrest⟩
    | none =>
      rw [h2] at h
      by_cases hxc : x = c
      · rw [if_pos hxc] at h
        have hys : ys = ([] : List Char) := by
          injection h with h3
          exact h3.symm
        subst hys
        exact ⟨xs, by rw [hxc]; rfl, (takeUntilLast_eq_none c xs).mp h2⟩
      · rw [if_neg hxc] at h
        cases h

/-- C5 (confirmed): for every input path, strip_revision_specifiers
returns the segment before the rightmost at-sign when one is present,
otherwise the segment before the rightmost hash-sign when one is
present, otherwise the path unchanged; the spec's three concrete
examples are also checked. -/
theorem strip_revision_specifiers_spec (path : String) :
    (('@') ∈ path.data →
      ∃ rest, path.data = (strip_revision_specifiers path).data ++ ('@') :: rest ∧
        ('@') ∉ rest) ∧
    (('@') ∉ path.data → ('#') ∈ path.data →
      ∃ rest, path.data = (strip_revision_specifiers path).data ++ ('#') :: rest ∧
        ('#') ∉ rest) ∧
    (('@') ∉ path.data → ('#') ∉ path.data → strip_revision_specifiers path = path) ∧
    strip_revision_specifiers ("//depot/f.txt@release") = ("//depot/f.txt") ∧
    strip_revision_specifiers ("//depot/f.txt#12") = ("//depot/f.txt") ∧
    strip_revision_specifiers ("//depot/f.txt") = ("//depot/f.txt") := by
  refine ⟨?_, ?_, ?_, by decide, by decide, by decide⟩
  · intro hat
    have hne : takeUntilLast ('@') path.data ≠ none := by
      intro h
      exact ((takeUntilLast_eq_none _ _).mp h) hat
    cases h : takeUntilLast ('@') path.data with
    | none => exact absurd h hne
    | some pre =>
      obtain ⟨rest, hcs, hrest⟩ := takeUntilLast_eq_some _ _ _ h
      refine ⟨rest, ?_, hrest⟩
      have hstrip : strip_revision_specifiers path = String.mk pre := by
        unfold strip_revision_specifiers
        rw [h]
      rw [hstrip]
      exact hcs
  · intro hat hhash
    have h1 : takeUntilLast ('@') path.data = none :=
      (takeUntilLast_eq_none _ _).mpr hat
    have hne : takeUntilLast ('#') path.data ≠ none := by
      intro h
      exact ((takeUntilLast_eq_none _ _).mp h) hhash
    cases h : takeUntilLast ('#') path.data with
    | none => exact absurd h hne
    | some pre =>
      obtain ⟨rest, hcs, hrest⟩ := takeUntilLast_eq_some _ _ _ h
      refine ⟨rest, ?_, hrest⟩
      have hstrip : strip_revision_specifiers path = String.mk pre := by
        unfold strip_revision_specifiers
        rw [h1, h]
      rw [hstrip]
      exact hcs
  · intro hat hhash
    have h1 : takeUntilLast ('@') path.data = none :=
      (takeUntilLast_eq_none _ _).mpr hat
    have h2 : takeUntilLast ('#') path.data = none :=
      (takeUntilLast_eq_none _ _).mpr hhash
    unfold strip_revision_specifiers
    rw [h1, h2]

theorem strip_revision_specifiers_witness :
    strip_revision_specifiers ("//depot/plain") = ("//depot/plain") :=
  (strip_revision_specifiers_spec ("//depot/plain")).2.2.1 (by decide) (by decide)

/-- C6 (confirmed): canonicalize_revision_range renders a degenerate
range as a bare revision specifier and a proper range as a
comma-separated pair, totally; the spec's two concrete examples are
also checked. -/
theorem canonicalize_revision_range_spec :
    (∀ l : Nat, canonicalize_revision_range l l = ("#") ++ toString l) ∧
    (∀ l u : Nat, u ≠ l →
      canonicalize_revision_range l u = ("#") ++ toString l ++ (",") ++ toString u) ∧
    canonicalize_revision_range 5 5 = ("#5") ∧
    canonicalize_revision_range 3 7 = ("#3,7") := by
  refine ⟨fun l => ?_, fun l u h => ?_, by decide, by decide⟩
  · simp [canonicalize_revision_range]
  · simp [canonicalize_revision_range, h]

theorem canonicalize_revision_range_witness :
    canonicalize_revision_range 3 7 = ("#") ++ toString 3 ++ (",") ++ toString 7 :=
  canonicalize_revision_range_spec.2.1 3 7 (by decide)

end R4

namespace R4

/-- C7 (confirmed): in print mode, a line record whose text satisfies
the effective predicate makes the reducer append exactly one output
chunk, the stripped path followed by the formatted range, a colon-space
separator, and the record's text verbatim (its trailing newline
included), at the very step that processes the record; a
non-satisfying line record leaves the state untouched. -/
theorem grep_print_mode_spec (m : String → Bool) (invert : Bool) (st : GrepState)
    (raw : String) (l u : Nat) (data : String)
    (hp : st.path = some (strip_revision_specifiers raw)) :
    (effectiveMatch m invert data = true →
      stepRec m false invert st (AnnRec.lineInfo l u data) =
        some { st with output := st.output ++
          [strip_revision_specifiers raw ++ canonicalize_revision_range l u ++
            (": ") ++ data] }) ∧
    (effectiveMatch m invert data = false →
      stepRec m false invert st (AnnRec.lineInfo l u data) = some st) := by
  constructor
  · intro h
    simp [stepRec, h, pyStrOpt, hp]
  · intro h
    simp [stepRec, h]

theorem grep_print_mode_witness :
    stepRec (fun _ => true) false false
        { got_match := false, match_ranges := [],
          path := some (strip_revision_specifiers ("//d/f.txt#3")), output := [] }
        (AnnRec.lineInfo 1 2 ("x\n")) =
      some { got_match := false, match_ranges := [],
             path := some (strip_revision_specifiers ("//d/f.txt#3")),
             output := [strip_revision_specifiers ("//d/f.txt#3") ++
               canonicalize_revision_range 1 2 ++ (": ") ++ ("x\n")] } :=
  (grep_print_mode_spec (fun _ => true) false
    { got_match := false, match_ranges := [],
      path := some (strip_revision_specifiers ("//d/f.txt#3")), output := [] }
    ("//d/f.txt#3") 1 2 ("x\n") rfl).1 rfl

/-- C4 (confirmed): with the invert flag set the effective predicate is
the boolean negation of the raw matcher result, and in the spec's
scenario (pattern foo, case-insensitive, inverted, print mode) the
non-matching line bar at range 4,4 is emitted while the raw-matching
line FOO at range 5,5 is suppressed. -/
theorem grep_invert_match_spec :
    (∀ (m : String → Bool) (s : String), effectiveMatch m true s = !(m s)) ∧
    grepRun matchesFooCI false true
        [[AnnRec.fileInfo ("f"), AnnRec.lineInfo 4 4 ("bar\n"),
          AnnRec.lineInfo 5 5 ("FOO\n")]] =
      some [("f#4: bar\n")] :=
  ⟨fun _ _ => rfl, by decide⟩

/-- C2 (code_bug): two file arguments, each with one matching line in
list-files mode, make the reducer emit the first file's coalesced block
twice: once at the end of the first annotate stream and again at the
second stream's first boundary record, because got_match, match_ranges
and path are not reset after the end-of-stream flush. The claimed
output would be two blocks; the code produces three lines. -/
theorem grep_multifile_duplication :
    grepRun (fun _ => true) true false
        [[AnnRec.fileInfo ("f1"), AnnRec.lineInfo 1 1 ("a\n")],
         [AnnRec.fileInfo ("f2"), AnnRec.lineInfo 2 2 ("b\n")]] =
      some [("f1#1\n"), ("f1#1\n"), ("f2#2\n")] := by
  decide

/-- C3 counterexample: a grep invocation with a single positional
argument produces the usage diagnostic on standard error with exit
status 0, and a well-formed run with zero matches also exits with
status 0, so the statuses are not distinguishable and the malformed
run's status is not non-zero. -/
theorem grep_usage_exit_counterexample :
    grepCommand (fun _ => false) false false [("foo")] [] =
      some { stdout := [],
             stderr := [grepUsage, ("Missing/wrong number of arguments.\n")],
             exitCode := 0 } ∧
    grepCommand (fun _ => false) false false [("foo"), ("file")]
        [[AnnRec.fileInfo ("//depot/file"), AnnRec.lineInfo 1 1 ("x\n")]] =
      some { stdout := [], stderr := [], exitCode := 0 } :=
  ⟨by decide, by decide⟩

/-- C3 (corrected, amended): with fewer than two positional arguments
the grep command prints the usage diagnostic to standard error,
performs no scan and writes nothing to standard output, and the process
exits with status 0, which is the same status a successful run with
zero matches yields. -/
theorem grep_usage_behavior (m : String → Bool) (jl invert : Bool)
    (args : List String) (streams : List (List AnnRec)) (h : args.length < 2) :
    grepCommand m jl invert args streams =
      some { stdout := [],
             stderr := [grepUsage, ("Missing/wrong number of arguments.\n")],
             exitCode := 0 } := by
  simp [grepCommand, h]

theorem grep_usage_behavior_witness :
    grepCommand (fun _ => true) true true [("p")] [] =
      some { stdout := [],
             stderr := [grepUsage, ("Missing/wrong number of arguments.\n")],
             exitCode := 0 } :=
  grep_usage_behavior (fun _ => true) true true [("p")] [] (by decide)

end R4

namespace R4

lemma pyMaxR_go (rs : List (Nat × Nat)) : ∀ m : Nat,
    ∃ m2, rs.foldl pyMaxStep (some m) = some m2 ∧ (0 < m → m ≤ m2) ∧
      (∀ r ∈ rs, r.2 ≤ m2) ∧ (m2 = m ∨ ∃ r ∈ rs, r.2 = m2) := by
  induction rs with
  | nil =>
    intro m
    exact ⟨m, rfl, fun _ => le_refl m, by simp, Or.inl rfl⟩
  | cons r t ih =>
    intro m
    have hstep : ∃ m1, pyMaxStep (some m) r = some m1 ∧ r.2 ≤ m1 ∧
        (0 < m → m ≤ m1) ∧ (m1 = m ∨ m1 = r.2) := by
      unfold pyMaxStep
      by_cases h0 : m = 0
      · exact ⟨r.2, by simp [h0], le_refl _, by omega, Or.inr rfl⟩
      · by_cases hgt : r.2 > m
        · exact ⟨r.2, by simp [h0, hgt], le_refl _, fun _ => by omega, Or.inr rfl⟩
        · exact ⟨m, by simp [h0, hgt], by omega, fun _ => le_refl m, Or.inl rfl⟩
    obtain ⟨m1, hm1, hr1, hmono1, hcase1⟩ := hstep
    obtain ⟨m2, hm2, hmono2, hbound2, hatt2⟩ := ih m1
    refine ⟨m2, ?_, ?_, ?_, ?_⟩
    · rw [List.foldl_cons, hm1]
      exact hm2
    · intro hm
      have h1 := hmono1 hm
      rcases Nat.eq_zero_or_pos m1 with h0 | h0
      · omega
      · have := hmono2 h0
        omega
    · intro x hx
      rcases List.mem_cons.mp hx with he | ht
      · subst he
        rcases Nat.eq_zero_or_pos m1 with h0 | h0
        · omega
        · have := hmono2 h0
          omega
      · exact hbound2 x ht
    · rcases hatt2 with he | ⟨x, hx, hxe⟩
      · subst he
        rcases hcase1 with he2 | he2
        · exact Or.inl he2
        · exact Or.inr ⟨r, List.mem_cons_self r t, he2.symm⟩
      · exact Or.inr ⟨x, List.mem_cons_of_mem r hx, hxe⟩

lemma pyMaxR_spec (r0 : Nat × Nat) (t : List (Nat × Nat)) :
    ∃ M, pyMaxR (r0 :: t) = some M ∧ ∀ r ∈ r0 :: t, r.2 ≤ M := by
  obtain ⟨m2, hm2, hmono, hbound, _⟩ := pyMaxR_go t r0.2
  refine ⟨m2, ?_, ?_⟩
  · unfold pyMaxR
    rw [List.foldl_cons]
    exact hm2
  · intro r hr
    rcases List.mem_cons.mp hr with he | ht
    · subst he
      rcases Nat.eq_zero_or_pos r.2 with h0 | h0
      · omega
      · exact hmono h0
    · exact hbound r ht

lemma coalesce_eq_some (rs : List (Nat × Nat)) (M : Nat) (hM : pyMaxR rs = some M) :
    coalesce_revision_ranges rs =
      some (finishScan (scanLoop ([]) none 0
        (rs.foldl (fun bm p => markRange bm p.1 p.2) (List.replicate (M + 1) false)))) := by
  unfold coalesce_revision_ranges
  rw [hM]

lemma coalesce_isSome_of_ne_nil (rs : List (Nat × Nat)) (h : rs ≠ []) :
    (coalesce_revision_ranges rs).isSome = true := by
  cases rs with
  | nil => exact absurd rfl h
  | cons r t =>
    obtain ⟨M, hM, _⟩ := pyMaxR_spec r t
    rw [coalesce_eq_some (r :: t) M hM]
    rfl

lemma flushFile_ex (st : GrepState) (jl : Bool) (h : stateInv st) :
    ∃ out, flushFile st jl = some out := by
  unfold flushFile
  cases hc : (truthyStr st.path && jl && st.got_match) with
  | false => simp [hc]
  | true =>
    have hg : st.got_match = true := by
      simp only [Bool.and_eq_true] at hc
      exact hc.2
    have hne := h hg
    obtain ⟨rs, hrs⟩ := Option.isSome_iff_exists.mp (coalesce_isSome_of_ne_nil _ hne)
    simp [hc, hrs]

lemma stepRec_ex (m : String → Bool) (jl invert : Bool) (st : GrepState) (r : AnnRec)
    (h : stateInv st) : ∃ st2, stepRec m jl invert st r = some st2 ∧ stateInv st2 := by
  cases r with
  | fileInfo d =>
    obtain ⟨out, hout⟩ := flushFile_ex st jl h
    refine ⟨{ got_match := false, match_ranges := [],
              path := some (strip_revision_specifiers d),
              output := st.output ++ out }, ?_, ?_⟩
    · simp [stepRec, hout]
    · intro hg
      cases hg
  | lineInfo l u data =>
    cases hm : effectiveMatch m invert data with
    | false => exact ⟨st, by simp [stepRec, hm], h⟩
    | true =>
      cases hjl : jl with
      | true =>
        refine ⟨{ st with got_match := true,
                          match_ranges := st.match_ranges ++ [(l, u)] }, ?_, ?_⟩
        · simp [stepRec, hm, hjl]
        · intro _
          simp
      | false =>
        refine ⟨{ st with output := st.output ++
            [pyStrOpt st.path ++ canonicalize_revision_range l u ++ (": ") ++ data] },
          ?_, ?_⟩
        · simp [stepRec, hm, hjl]
        · intro hg
          exact h hg

lemma processStream_ex (m : String → Bool) (jl invert : Bool) :
    ∀ (recs : List AnnRec) (st : GrepState), stateInv st →
      ∃ st2, processStream m jl invert st recs = some st2 ∧ stateInv st2 := by
  intro recs
  induction recs with
  | nil => exact fun st h => ⟨st, rfl, h⟩
  | cons r rest ih =>
    intro st h
    obtain ⟨st1, h1, hi1⟩ := stepRec_ex m jl invert st r h
    obtain ⟨st2, h2, hi2⟩ := ih st1 hi1
    exact ⟨st2, by simp [processStream, h1, h2], hi2⟩

lemma processFileArg_ex (m : String → Bool) (jl invert : Bool) (st : GrepState)
    (recs : List AnnRec) (h : stateInv st) :
    ∃ st2, processFileArg m jl invert st recs = some st2 ∧ stateInv st2 := by
  obtain ⟨st1, h1, hi1⟩ := processStream_ex m jl invert recs st h
  obtain ⟨out, hout⟩ := flushFile_ex st1 jl hi1
  refine ⟨{ st1 with output := st1.output ++ out }, ?_, ?_⟩
  · simp [processFileArg, h1, hout]
  · intro hg
    exact hi1 hg

lemma processFiles_ex (m : String → Bool) (jl invert : Bool) :
    ∀ (files : List (List AnnRec)) (st : GrepState), stateInv st →
      ∃ st2, processFiles m jl invert st files = some st2 ∧ stateInv st2 := by
  intro files
  induction files with
  | nil => exact fun st h => ⟨st, rfl, h⟩
  | cons f fs ih =>
    intro st h
    obtain ⟨st1, h1, hi1⟩ := processFileArg_ex m jl invert st f h
    obtain ⟨st2, h2, hi2⟩ := ih st1 hi1
    exact ⟨st2, by simp [processFiles, h1, h2], hi2⟩

/-- C9 (confirmed): the coalescer does fail on an empty input (the
undefined maximum makes the bitmap allocation crash, modelled as none),
but in list-files mode the reducer maintains the invariant that a
recorded match implies a non-empty accumulated range list, flushes only
under the got_match guard, and therefore never calls the coalescer on
an empty sequence: the whole run always produces a result. -/
theorem grep_list_mode_no_empty_coalesce :
    coalesce_revision_ranges ([] : List (Nat × Nat)) = none ∧
    ∀ (m : String → Bool) (invert : Bool) (files : List (List AnnRec)),
      (grepRun m true invert files).isSome = true := by
  refine ⟨rfl, ?_⟩
  intro m invert files
  obtain ⟨st2, h2, _⟩ := processFiles_ex m true invert files
    { got_match := false, match_ranges := [], path := none, output := [] }
    (by intro hg; cases hg)
  unfold grepRun
  rw [h2]
  rfl

end R4

namespace R4

lemma coveredBy_cons (p : Nat × Nat) (t : List (Nat × Nat)) (n : Nat) :
    coveredBy (p :: t) n ↔ ((p.1 ≤ n ∧ n ≤ p.2) ∨ coveredBy t n) := by
  simp [coveredBy]

lemma coveredBy_nil (n : Nat) : ¬ coveredBy ([] : List (Nat × Nat)) n := by
  simp [coveredBy]

lemma coveredBy_lb (t : List (Nat × Nat)) (lb n : Nat) (h : ∀ r ∈ t, lb ≤ r.1)
    (hc : coveredBy t n) : lb ≤ n := by
  obtain ⟨r, hr, h1, _⟩ := hc
  have := h r hr
  omega

lemma setFold_length (is : List Nat) : ∀ bm : List Bool,
    (is.foldl (fun b j => b.set j true) bm).length = bm.length := by
  induction is with
  | nil => intro bm; rfl
  | cons j t ih =>
    intro bm
    rw [List.foldl_cons, ih, List.length_set]

lemma getD_set_true (bm : List Bool) : ∀ j i : Nat,
    ((bm.set j true).getD i false = true ↔
      ((i = j ∧ j < bm.length) ∨ bm.getD i false = true)) := by
  induction bm with
  | nil =>
    intro j i
    simp
  | cons b t ih =>
    intro j i
    cases j with
    | zero =>
      cases i with
      | zero => simp [List.set]
      | succ k => simp [List.set, getD_cons_succ]
    | succ j2 =>
      cases i with
      | zero => simp [List.set, getD_cons_zero]
      | succ k =>
        have harith : (k = j2 ∧ j2 < t.length) ↔
            (k + 1 = j2 + 1 ∧ j2 + 1 < t.length + 1) := by omega
        calc ((b :: t).set (j2 + 1) true).getD (k + 1) false = true
            ↔ (t.set j2 true).getD k false = true := by simp [List.set, getD_cons_succ]
          _ ↔ ((k = j2 ∧ j2 < t.length) ∨ t.getD k false = true) := ih j2 k
          _ ↔ ((k + 1 = j2 + 1 ∧ j2 + 1 < t.length + 1) ∨
                (b :: t).getD (k + 1) false = true) := by
              rw [getD_cons_succ, harith]
          _ ↔ ((k + 1 = j2 + 1 ∧ j2 + 1 < (b :: t).length) ∨
                (b :: t).getD (k + 1) false = true) := by simp

lemma setFold_getD (is : List Nat) : ∀ (bm : List Bool) (i : Nat),
    ((is.foldl (fun b j => b.set j true) bm).getD i false = true ↔
      (bm.getD i false = true ∨ (i ∈ is ∧ i < bm.length))) := by
  induction is with
  | nil =>
    intro bm i
    simp
  | cons j t ih =>
    intro bm i
    rw [List.foldl_cons, ih (bm.set j true) i, getD_set_true, List.length_set]
    simp only [List.mem_cons]
    constructor
    · rintro ((⟨hij, hj⟩ | hbm) | ⟨hmem, hlen⟩)
      · exact Or.inr ⟨Or.inl hij, by omega⟩
      · exact Or.inl hbm
      · exact Or.inr ⟨Or.inr hmem, hlen⟩
    · rintro (hbm | ⟨hij | hmem, hlen⟩)
      · exact Or.inl (Or.inr hbm)
      · exact Or.inl (Or.inl ⟨hij, by omega⟩)
      · exact Or.inr ⟨hmem, hlen⟩

lemma mem_pyRange (l u i : Nat) : i ∈ List.range' l (u + 1 - l) ↔ (l ≤ i ∧ i ≤ u) := by
  constructor
  · intro h
    obtain ⟨k, hk, he⟩ := List.mem_range'.mp h
    omega
  · intro h
    exact List.mem_range'.mpr ⟨i - l, by omega, by omega⟩

lemma markRange_length (bm : List Bool) (l u : Nat) :
    (markRange bm l u).length = bm.length :=
  setFold_length _ bm

lemma markRange_getD (bm : List Bool) (l u i : Nat) :
    ((markRange bm l u).getD i false = true ↔
      ((l ≤ i ∧ i ≤ u ∧ i < bm.length) ∨ bm.getD i false = true)) := by
  unfold markRange
  rw [setFold_getD, mem_pyRange]
  tauto

lemma markFold_length (rs : List (Nat × Nat)) : ∀ bm : List Bool,
    (rs.foldl (fun b p => markRange b p.1 p.2) bm).length = bm.length := by
  induction rs with
  | nil => intro bm; rfl
  | cons r t ih =>
    intro bm
    rw [List.foldl_cons, ih, markRange_length]

lemma markFold_getD (rs : List (Nat × Nat)) : ∀ (bm : List Bool) (i : Nat),
    ((rs.foldl (fun b p => markRange b p.1 p.2) bm).getD i false = true ↔
      ((coveredBy rs i ∧ i < bm.length) ∨ bm.getD i false = true)) := by
  induction rs with
  | nil =>
    intro bm i
    simp [coveredBy]
  | cons r t ih =>
    intro bm i
    rw [List.foldl_cons, ih, markRange_getD, markRange_length, coveredBy_cons]
    tauto

lemma getD_replicate_false (n : Nat) : ∀ i : Nat,
    (List.replicate n false).getD i false = false := by
  induction n with
  | zero => intro i; rfl
  | succ k ih =>
    intro i
    cases i with
    | zero => rfl
    | succ j => simp [List.replicate_succ, getD_cons_succ, ih j]

end R4

namespace R4

lemma bmCovers_nil (pos n : Nat) : bmCovers pos ([] : List Bool) n ↔ False :=
  Iff.rfl

lemma bmCovers_cons (pos : Nat) (b : Bool) (rest : List Bool) (n : Nat) :
    bmCovers pos (b :: rest) n ↔ ((n = pos ∧ b = true) ∨ bmCovers (pos + 1) rest n) :=
  Iff.rfl

lemma coveredBy_nil_iff (n : Nat) : coveredBy ([] : List (Nat × Nat)) n ↔ False := by
  simp [coveredBy]

lemma runs_nil_some (pos s : Nat) : runs pos (some s) ([] : List Bool) = [(s, pos - 1)] :=
  rfl

lemma runs_nil_none (pos : Nat) : runs pos none ([] : List Bool) = [] :=
  rfl

lemma runs_cons_some_true (pos s : Nat) (rest : List Bool) :
    runs pos (some s) (true :: rest) = runs (pos + 1) (some s) rest :=
  rfl

lemma runs_cons_some_false (pos s : Nat) (rest : List Bool) :
    runs pos (some s) (false :: rest) = (s, pos - 1) :: runs (pos + 1) none rest :=
  rfl

lemma runs_cons_none_true (pos : Nat) (rest : List Bool) :
    runs pos none (true :: rest) = runs (pos + 1) (some pos) rest :=
  rfl

lemma runs_cons_none_false (pos : Nat) (rest : List Bool) :
    runs pos none (false :: rest) = runs (pos + 1) none rest :=
  rfl

lemma bmCovers_iff_getD (bm : List Bool) : ∀ pos n : Nat,
    (bmCovers pos bm n ↔
      (pos ≤ n ∧ n - pos < bm.length ∧ bm.getD (n - pos) false = true)) := by
  induction bm with
  | nil =>
    intro pos n
    simp [bmCovers]
  | cons b rest ih =>
    intro pos n
    rw [bmCovers_cons, ih (pos + 1) n, List.length_cons]
    by_cases hn : n = pos
    · subst hn
      constructor
      · rintro (⟨_, hb⟩ | ⟨h1, _⟩)
        · refine ⟨le_refl _, by omega, ?_⟩
          rw [Nat.sub_self]
          exact hb
        · exact absurd h1 (by omega)
      · rintro ⟨_, _, h3⟩
        left
        refine ⟨rfl, ?_⟩
        rw [Nat.sub_self] at h3
        exact h3
    · constructor
      · rintro (⟨h1, _⟩ | ⟨h1, h2, h3⟩)
        · exact absurd h1 hn
        · refine ⟨by omega, by omega, ?_⟩
          have he : n - pos = (n - (pos + 1)) + 1 := by omega
          rw [he, getD_cons_succ]
          exact h3
      · rintro ⟨h1, h2, h3⟩
        right
        refine ⟨by omega, by omega, ?_⟩
        have he : n - pos = (n - (pos + 1)) + 1 := by omega
        rw [he, getD_cons_succ] at h3
        exact h3

lemma runs_cover (bm : List Bool) : ∀ (pos : Nat) (st : Option Nat) (n : Nat),
    (∀ s, st = some s → s < pos) →
    (coveredBy (runs pos st bm) n ↔
      ((∃ s, st = some s ∧ s ≤ n ∧ n < pos) ∨ bmCovers pos bm n)) := by
  induction bm with
  | nil =>
    intro pos st n h
    cases st with
    | none =>
      rw [runs_nil_none, coveredBy_nil_iff, bmCovers_nil, or_false]
      constructor
      · intro hf
        exact hf.elim
      · rintro ⟨s2, he, _⟩
        cases he
    | some s =>
      have hs := h s rfl
      rw [runs_nil_some, coveredBy_cons, coveredBy_nil_iff, or_false, bmCovers_nil,
        or_false]
      constructor
      · rintro ⟨h1, h2⟩
        have h1b : s ≤ n := h1
        have h2b : n ≤ pos - 1 := h2
        exact ⟨s, rfl, h1b, by omega⟩
      · rintro ⟨s2, he, h1, h2⟩
        injection he with he2
        subst he2
        exact ⟨h1, (by omega : n ≤ pos - 1)⟩
  | cons b rest ih =>
    intro pos st n h
    cases st with
    | some s =>
      have hs := h s rfl
      cases b with
      | true =>
        rw [runs_cons_some_true,
          ih (pos + 1) (some s) n (by intro s2 e; injection e with e; omega),
          bmCovers_cons]
        constructor
        · rintro (⟨s2, he, h1, h2⟩ | hc)
          · injection he with he2
            subst he2
            by_cases hnp : n = pos
            · exact Or.inr (Or.inl ⟨hnp, rfl⟩)
            · exact Or.inl ⟨s, rfl, h1, by omega⟩
          · exact Or.inr (Or.inr hc)
        · rintro (⟨s2, he, h1, h2⟩ | ⟨hnp, _⟩ | hc)
          · injection he with he2
            subst he2
            exact Or.inl ⟨s, rfl, h1, by omega⟩
          · subst hnp
            exact Or.inl ⟨s, rfl, by omega, by omega⟩
          · exact Or.inr hc
      | false =>
        rw [runs_cons_some_false, coveredBy_cons,
          ih (pos + 1) none n (by intro s2 e; cases e), bmCovers_cons]
        constructor
        · rintro (⟨h1, h2⟩ | ⟨s2, he, _⟩ | hc)
          · have h1b : s ≤ n := h1
            have h2b : n ≤ pos - 1 := h2
            exact Or.inl ⟨s, rfl, h1b, by omega⟩
          · cases he
          · exact Or.inr (Or.inr hc)
        · rintro (⟨s2, he, h1, h2⟩ | ⟨hnp, hb⟩ | hc)
          · injection he with he2
            subst he2
            exact Or.inl ⟨h1, (by omega : n ≤ pos - 1)⟩
          · cases hb
          · exact Or.inr (Or.inr hc)
    | none =>
      cases b with
      | true =>
        rw [runs_cons_none_true,
          ih (pos + 1) (some pos) n (by intro s2 e; injection e with e; omega),
          bmCovers_cons]
        constructor
        · rintro (⟨s2, he, h1, h2⟩ | hc)
          · injection he with he2
            subst he2
            exact Or.inr (Or.inl ⟨by omega, rfl⟩)
          · exact Or.inr (Or.inr hc)
        · rintro (⟨s2, he, _⟩ | ⟨hnp, _⟩ | hc)
          · cases he
          · subst hnp
            exact Or.inl ⟨n, rfl, le_refl n, by omega⟩
          · exact Or.inr hc
      | false =>
        rw [runs_cons_none_false, ih (pos + 1) none n (by intro s2 e; cases e),
          bmCovers_cons]
        constructor
        · rintro (⟨s2, he, _⟩ | hc)
          · cases he
          · exact Or.inr (Or.inr hc)
        · rintro (⟨s2, he, _⟩ | ⟨_, hb⟩ | hc)
          · cases he
          · cases hb
          · exact Or.inr hc

end R4

namespace R4

lemma runs_good (bm : List Bool) : ∀ (pos : Nat) (st : Option Nat) (lb : Nat),
    0 < pos → (∀ s, st = some s → 0 < s ∧ s < pos ∧ lb ≤ s) →
    (st = none → lb ≤ pos) →
    ((∀ r ∈ runs pos st bm, lb ≤ r.1 ∧ r.1 ≤ r.2) ∧
      List.Pairwise (fun a b => a.2 + 2 ≤ b.1) (runs pos st bm)) := by
  induction bm with
  | nil =>
    intro pos st lb hpos hsome hnone
    cases st with
    | none =>
      rw [runs_nil_none]
      exact ⟨by simp, by simp⟩
    | some s =>
      obtain ⟨h1, h2, h3⟩ := hsome s rfl
      rw [runs_nil_some]
      refine ⟨?_, by simp⟩
      intro r hr
      have he := List.mem_singleton.mp hr
      subst he
      exact ⟨h3, (by omega : s ≤ pos - 1)⟩
  | cons b rest ih =>
    intro pos st lb hpos hsome hnone
    cases st with
    | some s =>
      obtain ⟨h1, h2, h3⟩ := hsome s rfl
      cases b with
      | true =>
        rw [runs_cons_some_true]
        exact ih (pos + 1) (some s) lb (by omega)
          (by intro s2 e; injection e with e; subst e; exact ⟨h1, by omega, h3⟩)
          (by intro e; cases e)
      | false =>
        rw [runs_cons_some_false]
        obtain ⟨hmem, hpw⟩ := ih (pos + 1) none (pos + 1) (by omega)
          (by intro s2 e; cases e) (fun _ => le_refl _)
        constructor
        · intro r hr
          rcases List.mem_cons.mp hr with he | ht
          · subst he
            exact ⟨h3, (by omega : s ≤ pos - 1)⟩
          · obtain ⟨ha, hb⟩ := hmem r ht
            exact ⟨by omega, hb⟩
        · rw [List.pairwise_cons]
          refine ⟨?_, hpw⟩
          intro r hr
          obtain ⟨ha, _⟩ := hmem r hr
          exact (by omega : pos - 1 + 2 ≤ r.1)
    | none =>
      have hlb := hnone rfl
      cases b with
      | true =>
        rw [runs_cons_none_true]
        exact ih (pos + 1) (some pos) lb (by omega)
          (by intro s2 e; injection e with e; subst e; exact ⟨hpos, by omega, hlb⟩)
          (by intro e; cases e)
      | false =>
        rw [runs_cons_none_false]
        exact ih (pos + 1) none lb (by omega)
          (by intro s2 e; cases e) (fun _ => by omega)

lemma scanLoop_nil (nr : List (Nat × Nat)) (st : Option Nat) (pos : Nat) :
    scanLoop nr st pos ([] : List Bool) = (nr, st, pos) :=
  rfl

lemma scanLoop_eq_runs (bm : List Bool) : ∀ (nr : List (Nat × Nat)) (st : Option Nat)
    (pos : Nat), 0 < pos → (∀ s, st = some s → 0 < s) →
    finishScan (scanLoop nr st pos bm) = nr ++ runs pos st bm := by
  induction bm with
  | nil =>
    intro nr st pos hpos hst
    cases st with
    | none =>
      rw [scanLoop_nil, runs_nil_none, List.append_nil]
      rfl
    | some s =>
      cases s with
      | zero => exact absurd (hst 0 rfl) (by omega)
      | succ k =>
        rw [scanLoop_nil, runs_nil_some]
        rfl
  | cons b rest ih =>
    intro nr st pos hpos hst
    cases st with
    | none =>
      cases b with
      | true =>
        have hred : scanLoop nr none pos (true :: rest) =
            scanLoop nr (some pos) (pos + 1) rest := rfl
        rw [hred, ih nr (some pos) (pos + 1) (by omega)
          (by intro s e; injection e with e; omega), runs_cons_none_true]
      | false =>
        have hred : scanLoop nr none pos (false :: rest) =
            scanLoop nr none (pos + 1) rest := rfl
        rw [hred, ih nr none (pos + 1) (by omega) (by intro s e; cases e),
          runs_cons_none_false]
    | some s =>
      cases s with
      | zero => exact absurd (hst 0 rfl) (by omega)
      | succ k =>
        cases b with
        | true =>
          have hred : scanLoop nr (some (k + 1)) pos (true :: rest) =
              scanLoop nr (some (k + 1)) (pos + 1) rest := rfl
          rw [hred, ih nr (some (k + 1)) (pos + 1) (by omega)
            (by intro s e; injection e with e; omega), runs_cons_some_true]
        | false =>
          have hred : scanLoop nr (some (k + 1)) pos (false :: rest) =
              scanLoop (nr ++ [(k + 1, pos - 1)]) none (pos + 1) rest := rfl
          rw [hred, ih (nr ++ [(k + 1, pos - 1)]) none (pos + 1) (by omega)
            (by intro s e; cases e), runs_cons_some_false]
          rw [List.append_assoc]
          rfl

lemma scanLoop_canon (bm : List Bool) : ∀ (acc : List (Nat × Nat)) (st : Option Nat)
    (pos : Nat),
    (∀ r ∈ acc, 0 < r.1 ∧ r.1 ≤ r.2 ∧ r.2 + 2 ≤ pos) →
    List.Pairwise (fun a b => a.2 + 2 ≤ b.1) acc →
    (∀ s, st = some s → s < pos ∧ (0 < s → ∀ r ∈ acc, r.2 + 2 ≤ s)) →
    ((∀ r ∈ finishScan (scanLoop acc st pos bm), 0 < r.1 ∧ r.1 ≤ r.2) ∧
      List.Pairwise (fun a b => a.2 + 2 ≤ b.1) (finishScan (scanLoop acc st pos bm))) := by
  induction bm with
  | nil =>
    intro acc st pos hacc hpw hst
    cases st with
    | none =>
      have hfin : finishScan (scanLoop acc none pos ([] : List Bool)) = acc := rfl
      rw [hfin]
      exact ⟨fun r hr => ⟨(hacc r hr).1, (hacc r hr).2.1⟩, hpw⟩
    | some s =>
      cases s with
      | zero =>
        have hfin : finishScan (scanLoop acc (some 0) pos ([] : List Bool)) = acc := rfl
        rw [hfin]
        exact ⟨fun r hr => ⟨(hacc r hr).1, (hacc r hr).2.1⟩, hpw⟩
      | succ k =>
        obtain ⟨hlt, himp⟩ := hst (k + 1) rfl
        have hfin : finishScan (scanLoop acc (some (k + 1)) pos ([] : List Bool)) =
            acc ++ [(k + 1, pos - 1)] := rfl
        rw [hfin]
        constructor
        · intro r hr
          rcases List.mem_append.mp hr with hm | hm
          · exact ⟨(hacc r hm).1, (hacc r hm).2.1⟩
          · have he := List.mem_singleton.mp hm
            subst he
            exact ⟨by omega, (by omega : k + 1 ≤ pos - 1)⟩
        · rw [List.pairwise_append]
          refine ⟨hpw, by simp, ?_⟩
          intro a ha b hb
          have he := List.mem_singleton.mp hb
          subst he
          have := himp (by omega) a ha
          exact (by omega : a.2 + 2 ≤ k + 1)
  | cons b rest ih =>
    intro acc st pos hacc hpw hst
    cases st with
    | none =>
      cases b with
      | true =>
        have hred : scanLoop acc none pos (true :: rest) =
            scanLoop acc (some pos) (pos + 1) rest := rfl
        rw [hred]
        refine ih acc (some pos) (pos + 1) ?_ hpw ?_
        · intro r hr
          obtain ⟨x1, x2, x3⟩ := hacc r hr
          exact ⟨x1, x2, by omega⟩
        · intro s e
          injection e with e
          subst e
          exact ⟨by omega, fun _ r hr => (hacc r hr).2.2⟩
      | false =>
        have hred : scanLoop acc none pos (false :: rest) =
            scanLoop acc none (pos + 1) rest := rfl
        rw [hred]
        refine ih acc none (pos + 1) ?_ hpw ?_
        · intro r hr
          obtain ⟨x1, x2, x3⟩ := hacc r hr
          exact ⟨x1, x2, by omega⟩
        · intro s e
          cases e
    | some s =>
      cases s with
      | zero =>
        cases b with
        | true =>
          have hred : scanLoop acc (some 0) pos (true :: rest) =
              scanLoop acc (some pos) (pos + 1) rest := rfl
          rw [hred]
          refine ih acc (some pos) (pos + 1) ?_ hpw ?_
          · intro r hr
            obtain ⟨x1, x2, x3⟩ := hacc r hr
            exact ⟨x1, x2, by omega⟩
          · intro s e
            injection e with e
            subst e
            exact ⟨by omega, fun _ r hr => (hacc r hr).2.2⟩
        | false =>
          have hred : scanLoop acc (some 0) pos (false :: rest) =
              scanLoop acc (some 0) (pos + 1) rest := rfl
          rw [hred]
          refine ih acc (some 0) (pos + 1) ?_ hpw ?_
          · intro r hr
            obtain ⟨x1, x2, x3⟩ := hacc r hr
            exact ⟨x1, x2, by omega⟩
          · intro s e
            injection e with e
            subst e
            exact ⟨by omega, fun h0 => absurd h0 (by omega)⟩
      | succ k =>
        obtain ⟨hlt, himp⟩ := hst (k + 1) rfl
        cases b with
        | true =>
          have hred : scanLoop acc (some (k + 1)) pos (true :: rest) =
              scanLoop acc (some (k + 1)) (pos + 1) rest := rfl
          rw [hred]
          refine ih acc (some (k + 1)) (pos + 1) ?_ hpw ?_
          · intro r hr
            obtain ⟨x1, x2, x3⟩ := hacc r hr
            exact ⟨x1, x2, by omega⟩
          · intro s e
            injection e with e
            subst e
            exact ⟨by omega, fun _ => himp (by omega)⟩
        | false =>
          have hred : scanLoop acc (some (k + 1)) pos (false :: rest) =
              scanLoop (acc ++ [(k + 1, pos - 1)]) none (pos + 1) rest := rfl
          rw [hred]
          refine ih (acc ++ [(k + 1, pos - 1)]) none (pos + 1) ?_ ?_ ?_
          · intro r hr
            rcases List.mem_append.mp hr with hm | hm
            · obtain ⟨x1, x2, x3⟩ := hacc r hm
              exact ⟨x1, x2, by omega⟩
            · have he := List.mem_singleton.mp hm
              subst he
              exact ⟨by omega, (by omega : k + 1 ≤ pos - 1),
                (by omega : pos - 1 + 2 ≤ pos + 1)⟩
          · rw [List.pairwise_append]
            refine ⟨hpw, by simp, ?_⟩
            intro a ha b2 hb2
            have he := List.mem_singleton.mp hb2
            subst he
            have := himp (by omega) a ha
            exact (by omega : a.2 + 2 ≤ k + 1)
          · intro s e
            cases e

end R4

namespace R4

lemma coalesce_correct (rs : List (Nat × Nat)) (hne : rs ≠ [])
    (hval : ∀ r ∈ rs, 1 ≤ r.1 ∧ r.1 ≤ r.2) :
    ∃ out, coalesce_revision_ranges rs = some out ∧
      (∀ n, coveredBy out n ↔ coveredBy rs n) ∧
      (∀ r ∈ out, 1 ≤ r.1 ∧ r.1 ≤ r.2) ∧
      List.Pairwise (fun a b => a.2 + 2 ≤ b.1) out := by
  obtain ⟨r0, t, rfl⟩ := List.exists_cons_of_ne_nil hne
  obtain ⟨M, hM, hbound⟩ := pyMaxR_spec r0 t
  have hlen : ((r0 :: t).foldl (fun bm p => markRange bm p.1 p.2)
      (List.replicate (M + 1) false)).length = M + 1 := by
    rw [markFold_length, List.length_replicate]
  have hgetD : ∀ i, (((r0 :: t).foldl (fun bm p => markRange bm p.1 p.2)
      (List.replicate (M + 1) false)).getD i false = true ↔ coveredBy (r0 :: t) i) := by
    intro i
    rw [markFold_getD, getD_replicate_false, List.length_replicate]
    constructor
    · rintro (⟨hc, _⟩ | hf)
      · exact hc
      · cases hf
    · intro hc
      left
      refine ⟨hc, ?_⟩
      obtain ⟨r, hr, _, h2⟩ := hc
      have := hbound r hr
      omega
  obtain ⟨tail, hbm⟩ : ∃ tail, (r0 :: t).foldl (fun bm p => markRange bm p.1 p.2)
      (List.replicate (M + 1) false) = false :: tail := by
    cases hb : (r0 :: t).foldl (fun bm p => markRange bm p.1 p.2)
        (List.replicate (M + 1) false) with
    | nil =>
      rw [hb] at hlen
      cases hlen
    | cons b tl =>
      refine ⟨tl, ?_⟩
      have h0 : (b :: tl).getD 0 false = true ↔ coveredBy (r0 :: t) 0 := by
        rw [← hb]
        exact hgetD 0
      have hnc : ¬ coveredBy (r0 :: t) 0 := by
        rintro ⟨r, hr, h1, _⟩
        have := (hval r hr).1
        omega
      cases b with
      | false => rfl
      | true => exact absurd (h0.mp rfl) hnc
  have htl : tail.length = M := by
    rw [hbm, List.length_cons] at hlen
    omega
  have hco : coalesce_revision_ranges (r0 :: t) =
      some (finishScan (scanLoop ([]) none 0 (false :: tail))) := by
    rw [coalesce_eq_some (r0 :: t) M hM, hbm]
  have hstep : scanLoop ([] : List (Nat × Nat)) none 0 (false :: tail) =
      scanLoop ([]) none 1 tail := rfl
  have hrun : finishScan (scanLoop ([]) none 0 (false :: tail)) = runs 1 none tail := by
    rw [hstep, scanLoop_eq_runs tail ([]) none 1 (by omega) (by intro s e; cases e)]
    rfl
  refine ⟨runs 1 none tail, by rw [hco, hrun], ?_, ?_, ?_⟩
  · intro n
    rw [runs_cover tail 1 none n (by intro s e; cases e)]
    rw [bmCovers_iff_getD]
    constructor
    · rintro (⟨s, he, _⟩ | ⟨h1, h2, h3⟩)
      · cases he
      · have hb : ((r0 :: t).foldl (fun bm p => markRange bm p.1 p.2)
            (List.replicate (M + 1) false)).getD n false = true := by
          rw [hbm]
          have he : n = (n - 1) + 1 := by omega
          rw [he, getD_cons_succ]
          exact h3
        exact (hgetD n).mp hb
    · intro hc
      right
      obtain ⟨r, hr, hr1, hr2⟩ := hc
      have hv := hval r hr
      have hbd := hbound r hr
      refine ⟨by omega, by omega, ?_⟩
      have hb : ((r0 :: t).foldl (fun bm p => markRange bm p.1 p.2)
          (List.replicate (M + 1) false)).getD n false = true := (hgetD n).mpr
        ⟨r, hr, hr1, hr2⟩
      rw [hbm] at hb
      have he : n = (n - 1) + 1 := by omega
      rw [he, getD_cons_succ] at hb
      exact hb
  · obtain ⟨hmem, _⟩ := runs_good tail 1 none 1 (by omega)
      (by intro s e; cases e) (fun _ => le_refl 1)
    exact hmem
  · obtain ⟨_, hpw⟩ := runs_good tail 1 none 1 (by omega)
      (by intro s e; cases e) (fun _ => le_refl 1)
    exact hpw

lemma canon_unique : ∀ xs ys : List (Nat × Nat),
    (∀ r ∈ xs, r.1 ≤ r.2) → List.Pairwise (fun a b => a.2 + 2 ≤ b.1) xs →
    (∀ r ∈ ys, r.1 ≤ r.2) → List.Pairwise (fun a b => a.2 + 2 ≤ b.1) ys →
    (∀ n, coveredBy xs n ↔ coveredBy ys n) → xs = ys := by
  intro xs
  induction xs with
  | nil =>
    intro ys _ _ hyv _ hcov
    cases ys with
    | nil => rfl
    | cons y yt =>
      exfalso
      have hc : coveredBy (y :: yt) y.1 :=
        ⟨y, List.mem_cons_self y yt, le_refl _, hyv y (List.mem_cons_self y yt)⟩
      exact (coveredBy_nil y.1) ((hcov y.1).mpr hc)
  | cons x xt ih =>
    intro ys hxv hxp hyv hyp hcov
    cases ys with
    | nil =>
      exfalso
      have hc : coveredBy (x :: xt) x.1 :=
        ⟨x, List.mem_cons_self x xt, le_refl _, hxv x (List.mem_cons_self x xt)⟩
      exact (coveredBy_nil x.1) ((hcov x.1).mp hc)
    | cons y yt =>
      have hxtl : ∀ r ∈ xt, x.2 + 2 ≤ r.1 := (List.pairwise_cons.mp hxp).1
      have hytl : ∀ r ∈ yt, y.2 + 2 ≤ r.1 := (List.pairwise_cons.mp hyp).1
      have hx12 : x.1 ≤ x.2 := hxv x (List.mem_cons_self x xt)
      have hy12 : y.1 ≤ y.2 := hyv y (List.mem_cons_self y yt)
      have hxy1 : x.1 = y.1 := by
        have h1 : coveredBy (y :: yt) x.1 :=
          (hcov x.1).mp ⟨x, List.mem_cons_self x xt, le_refl _, hx12⟩
        have h2 : coveredBy (x :: xt) y.1 :=
          (hcov y.1).mpr ⟨y, List.mem_cons_self y yt, le_refl _, hy12⟩
        rcases (coveredBy_cons y yt x.1).mp h1 with ⟨ha1, ha2⟩ | hc1
        · rcases (coveredBy_cons x xt y.1).mp h2 with ⟨hb1, hb2⟩ | hc2
          · omega
          · have := coveredBy_lb xt (x.2 + 2) y.1 hxtl hc2
            omega
        · have hg1 := coveredBy_lb yt (y.2 + 2) x.1 hytl hc1
          rcases (coveredBy_cons x xt y.1).mp h2 with ⟨hb1, hb2⟩ | hc2
          · omega
          · have := coveredBy_lb xt (x.2 + 2) y.1 hxtl hc2
            omega
      have hxy2 : x.2 = y.2 := by
        by_contra hne2
        rcases Nat.lt_or_ge x.2 y.2 with hlt | hge
        · have hcy : coveredBy (y :: yt) (x.2 + 1) :=
            ⟨y, List.mem_cons_self y yt, by omega, by omega⟩
          have hcx := (hcov (x.2 + 1)).mpr hcy
          rcases (coveredBy_cons x xt (x.2 + 1)).mp hcx with ⟨_, hb⟩ | hc
          · omega
          · have := coveredBy_lb xt (x.2 + 2) (x.2 + 1) hxtl hc
            omega
        · have hlt2 : y.2 < x.2 := by omega
          have hcx : coveredBy (x :: xt) (y.2 + 1) :=
            ⟨x, List.mem_cons_self x xt, by omega, by omega⟩
          have hcy := (hcov (y.2 + 1)).mp hcx
          rcases (coveredBy_cons y yt (y.2 + 1)).mp hcy with ⟨_, hb⟩ | hc
          · omega
          · have := coveredBy_lb yt (y.2 + 2) (y.2 + 1) hytl hc
            omega
      have htl : ∀ n, coveredBy xt n ↔ coveredBy yt n := by
        intro n
        constructor
        · intro h
          have hn := coveredBy_lb xt (x.2 + 2) n hxtl h
          have hfull : coveredBy (y :: yt) n :=
            (hcov n).mp ((coveredBy_cons x xt n).mpr (Or.inr h))
          rcases (coveredBy_cons y yt n).mp hfull with ⟨_, hb⟩ | hc
          · exact absurd hb (by omega)
          · exact hc
        · intro h
          have hn := coveredBy_lb yt (y.2 + 2) n hytl h
          have hfull : coveredBy (x :: xt) n :=
            (hcov n).mpr ((coveredBy_cons y yt n).mpr (Or.inr h))
          rcases (coveredBy_cons x xt n).mp hfull with ⟨_, hb⟩ | hc
          · exact absurd hb (by omega)
          · exact hc
      have hxyt : xt = yt :=
        ih yt (fun r hr => hxv r (List.mem_cons_of_mem x hr)) (List.pairwise_cons.mp hxp).2
          (fun r hr => hyv r (List.mem_cons_of_mem y hr)) (List.pairwise_cons.mp hyp).2 htl
      have hxy : x = y := Prod.ext hxy1 hxy2
      rw [hxy, hxyt]

lemma coalesce_canon (rs out : List (Nat × Nat))
    (h : coalesce_revision_ranges rs = some out) :
    (∀ r ∈ out, 0 < r.1 ∧ r.1 ≤ r.2) ∧
      List.Pairwise (fun a b => a.2 + 2 ≤ b.1) out := by
  cases hM : pyMaxR rs with
  | none =>
    unfold coalesce_revision_ranges at h
    rw [hM] at h
    cases h
  | some M =>
    rw [coalesce_eq_some rs M hM] at h
    injection h with h
    subst h
    exact scanLoop_canon _ ([]) none 0 (by simp) (by simp) (by intro s e; cases e)

lemma coalesce_of_canon (rs : List (Nat × Nat)) (hne : rs ≠ [])
    (hval : ∀ r ∈ rs, 1 ≤ r.1 ∧ r.1 ≤ r.2)
    (hpw : List.Pairwise (fun a b => a.2 + 2 ≤ b.1) rs) :
    coalesce_revision_ranges rs = some rs := by
  obtain ⟨out, ho, hcov, hv2, hp2⟩ := coalesce_correct rs hne hval
  have he : out = rs :=
    canon_unique out rs (fun r hr => (hv2 r hr).2) hp2 (fun r hr => (hval r hr).2)
      hpw hcov
  rw [ho, he]

end R4

namespace R4

/-- C1 counterexample: the range (0, 0) is a valid input under the
claim's precondition (lower is at least 0 and at most upper), yet the
coalescer returns the empty list for it, so the union of integer
points of the output (empty) differs from the union of the input
(which contains 0): Python truthiness treats a run start of 0 like
None and the final append is skipped. -/
theorem coalesce_zero_lower_counterexample :
    coalesce_revision_ranges [(0, 0)] = some [] ∧
    coveredBy [(0, 0)] 0 ∧ ¬ coveredBy ([] : List (Nat × Nat)) 0 :=
  ⟨by decide, by decide, by decide⟩

/-- C1 (corrected, amended): for every non-empty sequence of ranges
whose lower bounds are at least 1 (the practical invariant: revision
numbering starts at 1) with lower at most upper, the coalescer
succeeds, the union of integer points of the output equals the union
of the input, the output ranges are pairwise non-overlapping and
non-adjacent, and the output is sorted strictly ascending by lower
bound. With lower bounds allowed to be 0 the property fails. -/
theorem coalesce_spec_valid (rs : List (Nat × Nat)) (hne : rs ≠ [])
    (hval : ∀ r ∈ rs, 1 ≤ r.1 ∧ r.1 ≤ r.2) :
    coalesce_revision_ranges rs ≠ none ∧
    ∀ out, coalesce_revision_ranges rs = some out →
      ((∀ n, coveredBy out n ↔ coveredBy rs n) ∧
        List.Pairwise (fun a b => a.2 + 1 < b.1) out ∧
        List.Pairwise (fun a b => a.1 < b.1) out) := by
  obtain ⟨o, ho, hc, hv, hp⟩ := coalesce_correct rs hne hval
  constructor
  · rw [ho]
    intro h
    cases h
  · intro out hout
    rw [ho] at hout
    injection hout with hout
    subst hout
    refine ⟨hc, hp, ?_⟩
    refine List.Pairwise.imp_of_mem ?_ hp
    intro a b ha _ hr
    have := (hv a ha).2
    omega

theorem coalesce_spec_valid_witness :
    List.Pairwise (fun a b => a.2 + 1 < b.1) [(1, 3), (5, 9)] ∧
    (coveredBy [(1, 3), (5, 9)] 4 ↔ coveredBy [(1, 1), (2, 2), (3, 3), (5, 9)] 4) := by
  have h := coalesce_spec_valid [(1, 1), (2, 2), (3, 3), (5, 9)] (by decide) (by decide)
  have h2 := h.2 [(1, 3), (5, 9)] (by decide)
  exact ⟨h2.2.1, h2.1 4⟩

/-- C8 (confirmed): coalescing is idempotent on its own outputs: any
non-empty list that coalesce_revision_ranges produced from some input
is mapped to itself by another application of the function. -/
theorem coalesce_idempotent (input rs : List (Nat × Nat)) (hne : rs ≠ [])
    (h : coalesce_revision_ranges input = some rs) :
    coalesce_revision_ranges rs = some rs := by
  obtain ⟨hv, hpw⟩ := coalesce_canon input rs h
  exact coalesce_of_canon rs hne (fun r hr => ⟨(hv r hr).1, (hv r hr).2⟩) hpw

theorem coalesce_idempotent_witness :
    coalesce_revision_ranges [(1, 5)] = some [(1, 5)] :=
  coalesce_idempotent [(1, 2), (2, 5)] [(1, 5)] (by decide) (by decide)

/-- C10 (confirmed): for every non-empty sequence of ranges with
bounds at least 1 and lower at most upper, every permutation of the
sequence yields exactly the same coalescer output. -/
theorem coalesce_perm_invariant (rs rs2 : List (Nat × Nat)) (hne : rs ≠ [])
    (hval : ∀ r ∈ rs, 1 ≤ r.1 ∧ r.1 ≤ r.2) (hperm : rs2.Perm rs) :
    coalesce_revision_ranges rs2 = coalesce_revision_ranges rs := by
  have hne2 : rs2 ≠ [] := by
    intro he
    subst he
    exact hne (List.Perm.nil_eq hperm).symm
  have hval2 : ∀ r ∈ rs2, 1 ≤ r.1 ∧ r.1 ≤ r.2 := fun r hr =>
    hval r (hperm.mem_iff.mp hr)
  obtain ⟨o1, h1, hc1, hv1, hp1⟩ := coalesce_correct rs2 hne2 hval2
  obtain ⟨o2, h2, hc2, hv2, hp2⟩ := coalesce_correct rs hne hval
  have hcc : ∀ n, coveredBy o1 n ↔ coveredBy o2 n := by
    intro n
    rw [hc1, hc2]
    constructor
    · rintro ⟨r, hr, ha⟩
      exact ⟨r, hperm.mem_iff.mp hr, ha⟩
    · rintro ⟨r, hr, ha⟩
      exact ⟨r, hperm.mem_iff.mpr hr, ha⟩
  have he : o1 = o2 :=
    canon_unique o1 o2 (fun r hr => (hv1 r hr).2) hp1 (fun r hr => (hv2 r hr).2)
      hp2 hcc
  rw [h1, h2, he]

theorem coalesce_perm_invariant_witness :
    coalesce_revision_ranges [(2, 3), (1, 1)] = coalesce_revision_ranges [(1, 1), (2, 3)] :=
  coalesce_perm_invariant [(1, 1), (2, 3)] [(2, 3), (1, 1)] (by decide) (by decide)
    (by decide)

end R4
